import Mathlib

/-!
Verification development for the smart consensus engine
(src/src/smart_consensus.py).

The engine combines mean pairwise cosine similarity of sentence
embeddings, an entity-agreement bonus and a lexical contradiction
penalty into one consensus score.  We embed the repository's code
shallowly:

* program texts are modelled as lists of characters (Text);
* Python floats are modelled as exact rationals;
* the three external library collaborators (the sentence-transformer
  encoder, sklearn's cosine similarity and the spaCy entity model) are
  parameters of the model.  A collaborator that can raise is a function
  into Option, with None modelling a raised exception;
* the regular expressions hard-coded in the source are modelled by
  executable scanners over character lists, with the Python word class
  \w rendered for the ASCII and Swedish alphabets that the hard-coded
  patterns use.
-/

namespace SmartConsensus

/-- Raw program text, modelled as its list of characters. -/
abbrev Text := List Char

/-- Whitespace characters of the regex class used by the source
(the members of Python's s-class in the ASCII range). -/
def isWs (c : Char) : Bool :=
  c = ' ' || c = '\t' || c = '\n' || c = '\r' || c = '\x0b' || c = '\x0c'

/-- Markdown marker characters removed by the first substitution in
clean_text, the regex character class star, underscore, hash. -/
def isMd (c : Char) : Bool :=
  c = '*' || c = '_' || c = '#'

/-- One pass of the whitespace-collapsing substitution: every maximal
run of whitespace characters becomes a single space. -/
def collapse_ws : Text → Text
  | [] => []
  | [c] => if isWs c then [' '] else [c]
  | c :: c2 :: cs =>
    if isWs c && isWs c2 then collapse_ws (c2 :: cs)
    else (if isWs c then ' ' else c) :: collapse_ws (c2 :: cs)

/-- Python str.strip: drop whitespace from both ends. -/
def strip (t : Text) : Text :=
  ((t.dropWhile isWs).reverse.dropWhile isWs).reverse

/-- The source's clean_text: remove markdown markers, collapse
whitespace runs, truncate to 500 characters, then strip. -/
def clean_text (t : Text) : Text :=
  let t1 := t.filter (fun c => !(isMd c))
  let t2 := collapse_ws t1
  let t3 := if t2.length > 500 then t2.take 500 else t2
  strip t3

/-- The embedding-cache key of the source: first 100 characters of the
original text together with its total length (the Python key string
prefix-underscore-length is in bijection with this pair, because the
length part contains no underscore). -/
abbrev CacheKey := Text × Nat

def cache_key (t : Text) : CacheKey := (t.take 100, t.length)

/-- The engine's embedding cache, a dictionary from keys to embedding
vectors, modelled as an association list (new entries shadow). -/
abbrev Cache (E : Type) := List (CacheKey × E)

variable {E : Type}

/-- The source's get_embeddings: walk the responses in order; on a
cache hit return the stored vector unchanged, on a miss clean the text,
call the encoder collaborator, store the result under the original
text's key.  A raised encoder exception (None) propagates. -/
def get_embeddings (embed : Text → Option E) : Cache E → List Text → Option (List E × Cache E)
  | cache, [] => some ([], cache)
  | cache, t :: ts =>
    match cache.lookup (cache_key t) with
    | some e =>
      (get_embeddings embed cache ts).map (fun r => (e :: r.1, r.2))
    | none =>
      match embed (clean_text t) with
      | none => none
      | some e =>
        (get_embeddings embed ((cache_key t, e) :: cache) ts).map (fun r => (e :: r.1, r.2))

/-- All strict upper-triangle index pairs, in the nested-loop order of
the source (i ascending, then j greater than i). -/
def pairs_list : List α → List (α × α)
  | [] => []
  | x :: xs => xs.map (fun y => (x, y)) ++ pairs_list xs

/-- np.mean of a list of floats, modelled exactly over the rationals. -/
def mean (l : List ℚ) : ℚ := l.sum / l.length

/-- A labeled span produced by the entity-recognition collaborator. -/
structure SpacyEnt where
  label : String
  text : Text
deriving DecidableEq

/-- First match of the year regex (character 2, character 0, two
digits), scanning left to right as re.search does. -/
def find_year (t : Text) : Option Nat :=
  match t with
  | [] => none
  | c0 :: rest =>
    match rest with
    | c1 :: c2 :: c3 :: _ =>
      if c0 = '2' && c1 = '0' && c2.isDigit && c3.isDigit then
        some (2000 + 10 * (c2.toNat - 48) + (c3.toNat - 48))
      else find_year rest
    | _ => none

/-- Digit-or-dot characters, the class of the numeric-extraction regex. -/
def isNumChar (c : Char) : Bool := c.isDigit || c = '.'

/-- Leftmost maximal run of digit-or-dot characters (re.search of the
numeric class, greedy). -/
def first_num_run : Text → Option Text
  | [] => none
  | c :: cs => if isNumChar c then some (c :: cs.takeWhile isNumChar) else first_num_run cs

/-- Value of a digit string read as an integer part. -/
def digitsVal (ds : Text) : ℚ := ds.foldl (fun a c => 10 * a + ((c.toNat : ℚ) - 48)) 0

/-- Value of a digit string read as a fractional part. -/
def fracVal (ds : Text) : ℚ := ds.foldr (fun c a => (a + ((c.toNat : ℚ) - 48)) / 10) 0

/-- Python float() restricted to strings over digits and dots: at most
one dot and at least one digit, else a ValueError (None).  Exact
rational value instead of the source's binary float. -/
def parse_float (s : Text) : Option ℚ :=
  let intPart := s.takeWhile Char.isDigit
  let rest := s.drop intPart.length
  match rest with
  | [] => if intPart.isEmpty then none else some (digitsVal intPart)
  | '.' :: frac =>
    if frac.all Char.isDigit && !(intPart.isEmpty && frac.isEmpty) then
      some (digitsVal intPart + fracVal frac)
    else none
  | _ => none

/-- Year facts of one response: DATE-labelled spans whose text contains
a 20xx year. -/
def extract_dates (doc : List SpacyEnt) : List ℚ :=
  (doc.filter (fun e => e.label = "DATE")).filterMap
    (fun e => (find_year e.text).map (fun y => (y : ℚ)))

/-- Numeric facts of one response: CARDINAL, PERCENT or MONEY spans
whose first digit-or-dot run parses as a float; malformed numerics are
silently skipped. -/
def extract_numbers (doc : List SpacyEnt) : List ℚ :=
  (doc.filter (fun e => e.label = "CARDINAL" || e.label = "PERCENT" || e.label = "MONEY")).filterMap
    (fun e => (first_num_run e.text).bind parse_float)

/-- Similarity of one cross pair of values: skipped (None) when the
maximum is zero, else one minus the relative difference, floored at 0. -/
def pair_sim (n1 n2 : ℚ) : Option ℚ :=
  if max n1 n2 = 0 then none
  else some (max 0 (1 - |n1 - n2| / max n1 n2))

/-- All non-skipped cross-pair similarities of two value lists, in the
source's nested-loop order. -/
def cross_sims (nums1 nums2 : List ℚ) : List ℚ :=
  nums1.flatMap (fun n1 => nums2.filterMap (fun n2 => pair_sim n1 n2))

/-- best_similarity of the source: running maximum, starting at 0. -/
def best_similarity (nums1 nums2 : List ℚ) : ℚ :=
  (cross_sims nums1 nums2).foldl max 0

/-- The source's calculate_numeric_similarity. -/
def calculate_numeric_similarity (number_lists : List (List ℚ)) : ℚ :=
  if !(number_lists.any (fun l => !l.isEmpty)) then 0
  else
    let all_numbers := number_lists.flatMap id
    if all_numbers.length < 2 then 0
    else
      let sims := (pairs_list number_lists).filterMap
        (fun p => if p.1.isEmpty || p.2.isEmpty then none else some (best_similarity p.1 p.2))
      if sims.isEmpty then 0 else mean sims

/-- Run the entity collaborator on every response in order; None if any
call raises. -/
def option_traverse (f : α → Option β) : List α → Option (List β)
  | [] => some []
  | x :: xs =>
    match f x with
    | none => none
    | some y => (option_traverse f xs).map (fun ys => y :: ys)

/-- The source's compare_entities: on any collaborator exception return
the neutral adjustment 1.0, else combine date and number similarities
into the multiplicative bonus. -/
def compare_entities (nlp : Text → Option (List SpacyEnt)) (responses : List Text) : ℚ :=
  match option_traverse nlp responses with
  | none => 1
  | some docs =>
    let all_dates := docs.map extract_dates
    let all_numbers := docs.map extract_numbers
    let date_similarity := calculate_numeric_similarity all_dates
    let number_similarity := calculate_numeric_similarity all_numbers
    let entity_bonus := (3/5) * date_similarity + (2/5) * number_similarity
    1 + entity_bonus * (1/2)

/-- Python str.lower, rendered for the ASCII range. -/
def lower (t : Text) : Text := t.map Char.toLower

/-- The Python word class backslash-w, rendered for the alphabets that
appear in the source's hard-coded patterns: ASCII alphanumerics, the
underscore and the Swedish letters. -/
def isWordChar (c : Char) : Bool :=
  c.isAlphanum || c = '_' || c = 'å' || c = 'ä' || c = 'ö' ||
    c = 'Å' || c = 'Ä' || c = 'Ö' || c = 'é' || c = 'É'

/-- The word-boundary condition on the left of a candidate match: start
of string, or a non-word character right before (every alternative in
the source's patterns begins with a word character). -/
def boundaryBefore (prev : Option Char) : Bool :=
  match prev with
  | none => true
  | some c => !(isWordChar c)

/-- The word-boundary condition on the right of a candidate match: end
of string, or a non-word character right after (every alternative in
the source's patterns ends with a word character). -/
def boundaryAfter (s : Text) : Bool :=
  match s with
  | [] => true
  | c :: _ => !(isWordChar c)

/-- Try one pattern (an alternation of literal words, each wrapped in
word boundaries) at the current position, left to right as Python's
alternation does; return the matched length. -/
def match_alt (alts : List Text) (prev : Option Char) (s : Text) : Option Nat :=
  if boundaryBefore prev then
    alts.findSome? (fun a =>
      if a.isPrefixOf s && boundaryAfter (s.drop a.length) then some a.length else none)
  else none

/-- The scanning loop of re.findall: at each position try the pattern;
on a match count it and continue after its end, else advance one
character.  Fuel bounds the recursion by the text length (every step
consumes at least one character). -/
def count_matches_go (alts : List Text) : Nat → Option Char → Text → Nat
  | 0, _, _ => 0
  | _ + 1, _, [] => 0
  | fuel + 1, prev, c :: cs =>
    match match_alt alts prev (c :: cs) with
    | some n =>
      1 + count_matches_go alts fuel (((c :: cs).take n).getLast?) ((c :: cs).drop n)
    | none => count_matches_go alts fuel (some c) cs

/-- Number of matches of one bounded-alternation pattern in a text. -/
def count_matches (alts : List Text) (t : Text) : Nat :=
  count_matches_go alts t.length none t

/-- The three negation-pattern families of the source, in order. -/
def negation_patterns : List (List Text) :=
  [ ["not".toList, "inte".toList, "aldrig".toList, "never".toList, "no".toList, "nej".toList],
    ["impossible".toList, "omöjligt".toList, "unlikely".toList, "osannolikt".toList],
    ["disagree".toList, "håller inte med".toList, "motsätter".toList] ]

/-- Total negation-word count of one (lower-cased) response. -/
def neg_count (t : Text) : Nat :=
  (negation_patterns.map (fun p => count_matches p t)).sum

/-- The six disagreement-marker patterns of the source, in order. -/
def disagreement_markers : List (List Text) :=
  [ ["however".toList], ["but".toList], ["men".toList], ["dock".toList],
    ["on the contrary".toList], ["tvärtom".toList] ]

/-- Total disagreement-marker count of one (lower-cased) response. -/
def dis_count (t : Text) : Nat :=
  (disagreement_markers.map (fun p => count_matches p t)).sum

/-- The contradiction signals one unordered pair of responses
contributes: weight 0.5 when the negation counts differ by more than 2,
and another weight 0.3 when the combined disagreement-marker count
exceeds 1. -/
def pair_signals (r1 r2 : Text) : List ℚ :=
  let l1 := lower r1
  let l2 := lower r2
  let c1 := neg_count l1
  let c2 := neg_count l2
  let s1 : List ℚ := if ((c1 : ℤ) - (c2 : ℤ)).natAbs > 2 then [1/2] else []
  let d := dis_count l1 + dis_count l2
  let s2 : List ℚ := if d > 1 then [3/10] else []
  s1 ++ s2

/-- All recorded contradiction signals, over the unordered pairs in the
source's loop order. -/
def contradiction_signals (responses : List Text) : List ℚ :=
  (pairs_list responses).flatMap (fun p => pair_signals p.1 p.2)

/-- The source's detect_contradictions: mean of the recorded signals
capped at 0.8, or 0.0 when no signal was recorded.  The body is pure
(regex counting and arithmetic), so the defensive exception handler of
the source is unreachable and needs no model. -/
def detect_contradictions (responses : List Text) : ℚ :=
  let signals := contradiction_signals responses
  if signals.isEmpty then 0 else min (4/5) (mean signals)

/-- The source's measure_consensus: 1.0 for fewer than two responses;
otherwise mean upper-triangle cosine similarity of the embeddings,
times the entity adjustment, times one minus the contradiction penalty,
clamped to the unit interval.  An encoder exception reaches the
outermost handler and yields 0.0. -/
def measure_consensus (embed : Text → Option E) (cos : E → E → ℚ)
    (nlp : Text → Option (List SpacyEnt)) (cache : Cache E) (responses : List Text) : ℚ :=
  if responses.length < 2 then 1
  else
    match get_embeddings embed cache responses with
    | none => 0
    | some r =>
      let similarities := (pairs_list r.1).map (fun p => cos p.1 p.2)
      let base_similarity := if similarities.isEmpty then 0 else mean similarities
      let entity_adjustment := compare_entities nlp responses
      let contradiction_penalty := detect_contradictions responses
      let final := base_similarity * entity_adjustment * (1 - contradiction_penalty)
      max 0 (min 1 final)

/-! ### General lemmas about the aggregation helpers -/

theorem mean_nonneg {l : List ℚ} (h : ∀ x ∈ l, 0 ≤ x) : 0 ≤ mean l := by
  unfold mean
  exact div_nonneg (List.sum_nonneg h) (by positivity)

theorem mean_le_of_forall_le {l : List ℚ} {b : ℚ} (hb : 0 ≤ b) (h : ∀ x ∈ l, x ≤ b) :
    mean l ≤ b := by
  unfold mean
  rcases eq_or_ne l [] with rfl | hne
  · simpa using hb
  · have hlen : (0 : ℚ) < l.length := by
      have := List.length_pos.mpr hne
      exact_mod_cast this
    rw [div_le_iff₀ hlen]
    calc l.sum ≤ l.length • b := List.sum_le_card_nsmul l b h
    _ = b * l.length := by
      rw [nsmul_eq_mul, mul_comm]

theorem mean_replicate_one {n : ℕ} (hn : 0 < n) : mean (List.replicate n (1 : ℚ)) = 1 := by
  unfold mean
  rw [List.sum_replicate, List.length_replicate, nsmul_eq_mul, mul_one]
  exact div_self (by exact_mod_cast hn.ne')

/-- Every recorded contradiction signal has weight 0.5 or 0.3. -/
theorem pair_signals_mem {r1 r2 : Text} {s : ℚ} (h : s ∈ pair_signals r1 r2) :
    s = 1 / 2 ∨ s = 3 / 10 := by
  unfold pair_signals at h
  simp only [List.mem_append] at h
  rcases h with h | h <;> split_ifs at h <;> simp_all

theorem contradiction_signals_mem {l : List Text} {s : ℚ}
    (h : s ∈ contradiction_signals l) : s = 1 / 2 ∨ s = 3 / 10 := by
  unfold contradiction_signals at h
  simp only [List.mem_flatMap] at h
  obtain ⟨p, _, hp⟩ := h
  exact pair_signals_mem hp

theorem detect_contradictions_nonneg (l : List Text) : 0 ≤ detect_contradictions l := by
  unfold detect_contradictions
  dsimp only
  split
  · exact le_refl 0
  · refine le_min (by norm_num) (mean_nonneg ?_)
    intro x hx
    rcases contradiction_signals_mem hx with h | h <;> rw [h] <;> norm_num

theorem detect_contradictions_le_half (l : List Text) : detect_contradictions l ≤ 1 / 2 := by
  unfold detect_contradictions
  dsimp only
  split
  · norm_num
  · calc min (4 / 5 : ℚ) (mean (contradiction_signals l)) ≤ mean (contradiction_signals l) :=
      min_le_right _ _
    _ ≤ 1 / 2 := by
      refine mean_le_of_forall_le (by norm_num) ?_
      intro x hx
      rcases contradiction_signals_mem hx with h | h <;> rw [h] <;> norm_num

/-! ### Lemmas about the entity stage -/

theorem pairs_list_mem {l : List α} {p : α × α} (h : p ∈ pairs_list l) :
    p.1 ∈ l ∧ p.2 ∈ l := by
  induction l with
  | nil => simp [pairs_list] at h
  | cons x xs ih =>
    unfold pairs_list at h
    rcases List.mem_append.mp h with h | h
    · obtain ⟨y, hy, rfl⟩ := List.mem_map.mp h
      exact ⟨List.mem_cons_self x xs, List.mem_cons_of_mem x hy⟩
    · obtain ⟨h1, h2⟩ := ih h
      exact ⟨List.mem_cons_of_mem x h1, List.mem_cons_of_mem x h2⟩

theorem char_digit_toNat {c : Char} (h : c.isDigit = true) :
    48 ≤ c.toNat ∧ c.toNat ≤ 57 := by
  simp [Char.isDigit] at h
  exact h

theorem foldl_digits_nonneg :
    ∀ (ds : Text) (a : ℚ), (∀ c ∈ ds, c.isDigit) → 0 ≤ a →
      0 ≤ ds.foldl (fun a c => 10 * a + ((c.toNat : ℚ) - 48)) a
  | [], a, _, ha => ha
  | c :: cs, a, h, ha => by
    have h48 : (48 : ℚ) ≤ (c.toNat : ℚ) := by
      exact_mod_cast (char_digit_toNat (h c (List.mem_cons_self c cs))).1
    have hstep : 0 ≤ 10 * a + ((c.toNat : ℚ) - 48) := by linarith
    exact foldl_digits_nonneg cs _ (fun x hx => h x (List.mem_cons_of_mem c hx)) hstep

theorem digitsVal_nonneg {ds : Text} (h : ∀ c ∈ ds, c.isDigit) : 0 ≤ digitsVal ds :=
  foldl_digits_nonneg ds 0 h le_rfl

theorem fracVal_nonneg : ∀ {ds : Text}, (∀ c ∈ ds, c.isDigit) → 0 ≤ fracVal ds := by
  intro ds
  induction ds with
  | nil => intro _; simp [fracVal]
  | cons c cs ih =>
    intro h
    have h48 : (48 : ℚ) ≤ (c.toNat : ℚ) := by
      exact_mod_cast (char_digit_toNat (h c (List.mem_cons_self c cs))).1
    have hcs : 0 ≤ fracVal cs := ih (fun x hx => h x (List.mem_cons_of_mem c hx))
    show 0 ≤ (fracVal cs + ((c.toNat : ℚ) - 48)) / 10
    apply div_nonneg _ (by norm_num)
    linarith

theorem parse_float_nonneg {s : Text} {q : ℚ} (h : parse_float s = some q) : 0 ≤ q := by
  have hint : ∀ c ∈ s.takeWhile Char.isDigit, c.isDigit :=
    fun c hc => List.mem_takeWhile_imp hc
  unfold parse_float at h
  dsimp only at h
  split at h
  · split_ifs at h
    rw [Option.some_inj] at h
    exact h ▸ digitsVal_nonneg hint
  · rename_i frac heq
    split_ifs at h with hcond
    rw [Bool.and_eq_true] at hcond
    obtain ⟨hfrac, _⟩ := hcond
    rw [Option.some_inj] at h
    have hfd : ∀ c ∈ frac, c.isDigit := fun c hc => List.all_eq_true.mp hfrac c hc
    exact h ▸ add_nonneg (digitsVal_nonneg hint) (fracVal_nonneg hfd)
  · exact absurd h (by simp)

theorem extract_numbers_nonneg {doc : List SpacyEnt} :
    ∀ q ∈ extract_numbers doc, 0 ≤ q := by
  intro q hq
  unfold extract_numbers at hq
  obtain ⟨e, _, he⟩ := List.mem_filterMap.mp hq
  obtain ⟨run, _, hp⟩ := Option.bind_eq_some.mp he
  exact parse_float_nonneg hp

theorem extract_dates_nonneg {doc : List SpacyEnt} :
    ∀ q ∈ extract_dates doc, 0 ≤ q := by
  intro q hq
  unfold extract_dates at hq
  obtain ⟨e, he, hmap⟩ := List.mem_filterMap.mp hq
  cases hfy : find_year e.text with
  | none => rw [hfy] at hmap; simp at hmap
  | some y =>
    rw [hfy] at hmap
    simp at hmap
    exact le_of_le_of_eq (Nat.cast_nonneg y) hmap

theorem le_foldl_max (a : ℚ) (l : List ℚ) : a ≤ l.foldl max a := by
  induction l generalizing a with
  | nil => exact le_refl a
  | cons x xs ih => exact le_trans (le_max_left a x) (ih (max a x))

theorem foldl_max_le {b : ℚ} : ∀ {l : List ℚ} {a : ℚ}, a ≤ b → (∀ x ∈ l, x ≤ b) →
    l.foldl max a ≤ b := by
  intro l
  induction l with
  | nil => intro a ha _; exact ha
  | cons x xs ih =>
    intro a ha h
    exact ih (max_le ha (h x (List.mem_cons_self x xs)))
      (fun y hy => h y (List.mem_cons_of_mem x hy))

theorem cross_sims_mem {n1 n2 : List ℚ} {x : ℚ} (h : x ∈ cross_sims n1 n2) :
    ∃ a ∈ n1, ∃ b ∈ n2, pair_sim a b = some x := by
  unfold cross_sims at h
  simp only [List.mem_flatMap, List.mem_filterMap] at h
  obtain ⟨a, ha, b, hb, hp⟩ := h
  exact ⟨a, ha, b, hb, hp⟩

theorem pair_sim_bounds {n1 n2 s : ℚ} (h1 : 0 ≤ n1) (h2 : 0 ≤ n2)
    (h : pair_sim n1 n2 = some s) : 0 ≤ s ∧ s ≤ 1 := by
  unfold pair_sim at h
  split_ifs at h with hz
  rw [Option.some_inj] at h
  have hpos : 0 < max n1 n2 := lt_of_le_of_ne (le_trans h1 (le_max_left n1 n2)) (Ne.symm hz)
  have hd : 0 ≤ |n1 - n2| / max n1 n2 := div_nonneg (abs_nonneg _) hpos.le
  constructor
  · rw [← h]; exact le_max_left 0 _
  · rw [← h]; exact max_le (by norm_num) (by linarith)

theorem best_similarity_bounds {n1 n2 : List ℚ} (h1 : ∀ x ∈ n1, 0 ≤ x)
    (h2 : ∀ x ∈ n2, 0 ≤ x) :
    0 ≤ best_similarity n1 n2 ∧ best_similarity n1 n2 ≤ 1 := by
  constructor
  · exact le_foldl_max 0 _
  · refine foldl_max_le (by norm_num) ?_
    intro x hx
    obtain ⟨a, ha, b, hb, hp⟩ := cross_sims_mem hx
    exact (pair_sim_bounds (h1 a ha) (h2 b hb) hp).2

theorem calculate_numeric_similarity_bounds {lists : List (List ℚ)}
    (h : ∀ l ∈ lists, ∀ x ∈ l, 0 ≤ x) :
    0 ≤ calculate_numeric_similarity lists ∧ calculate_numeric_similarity lists ≤ 1 := by
  have hmem : ∀ x ∈ (pairs_list lists).filterMap
      (fun p => if p.1.isEmpty || p.2.isEmpty then none
                else some (best_similarity p.1 p.2)), 0 ≤ x ∧ x ≤ 1 := by
    intro x hx
    obtain ⟨p, hp, hval⟩ := List.mem_filterMap.mp hx
    split_ifs at hval
    rw [Option.some_inj] at hval
    obtain ⟨hp1, hp2⟩ := pairs_list_mem hp
    exact hval ▸ best_similarity_bounds (h p.1 hp1) (h p.2 hp2)
  unfold calculate_numeric_similarity
  split
  · exact ⟨le_refl 0, by norm_num⟩
  · dsimp only
    split
    · exact ⟨le_refl 0, by norm_num⟩
    · split
      · exact ⟨le_refl 0, by norm_num⟩
      · exact ⟨mean_nonneg (fun x hx => (hmem x hx).1),
          mean_le_of_forall_le (by norm_num) (fun x hx => (hmem x hx).2)⟩

/-- The numeric-similarity procedure exactly as the specification words
it: 0.0 when fewer than two values were extracted in total, otherwise
the average over all qualifying unordered response pairs (both sides
non-empty) of the best cross-pair similarity, 0.0 when none qualify. -/
def spec_numeric_similarity (number_lists : List (List ℚ)) : ℚ :=
  if (number_lists.flatMap id).length < 2 then 0
  else
    let sims := (pairs_list number_lists).filterMap
      (fun p => if p.1.isEmpty || p.2.isEmpty then none else some (best_similarity p.1 p.2))
    if sims.isEmpty then 0 else mean sims

theorem calc_eq_spec_numeric (lists : List (List ℚ)) :
    calculate_numeric_similarity lists = spec_numeric_similarity lists := by
  unfold calculate_numeric_similarity spec_numeric_similarity
  by_cases h : lists.any (fun l => !l.isEmpty)
  · rw [h]
    rfl
  · have hall : ∀ l ∈ lists, l = [] := by
      intro l hl
      by_contra hne
      exact h (List.any_eq_true.mpr ⟨l, hl, by simpa [List.isEmpty_iff] using hne⟩)
    have hflat : lists.flatMap id = [] := by
      rw [List.flatMap_eq_nil_iff]
      intro l hl
      exact hall l hl
    simp [h, hflat]

/-- C5: whenever the entity collaborator succeeds on every response,
the entity adjustment equals
1.0 + 0.5 * (0.6 * date_similarity + 0.4 * number_similarity) and lies
in [1.0, 1.5]; each similarity is computed by the numeric-similarity
procedure, which agrees with the specification's description of it
(0.0 for fewer than two extracted values, else the average over
qualifying pairs of the best cross-pair similarity max(0, 1-rel-diff),
skipping zero-max cross pairs), and on the single values 100 vs 200 it
gives 0.5 and on 100 vs 100 it gives 1.0. -/
theorem entity_adjustment_spec (nlp : Text → Option (List SpacyEnt)) (responses : List Text)
    (docs : List (List SpacyEnt)) (hok : option_traverse nlp responses = some docs) :
    compare_entities nlp responses =
      1 + ((3 / 5) * calculate_numeric_similarity (docs.map extract_dates)
        + (2 / 5) * calculate_numeric_similarity (docs.map extract_numbers)) * (1 / 2) ∧
    1 ≤ compare_entities nlp responses ∧
    compare_entities nlp responses ≤ 3 / 2 ∧
    (∀ lists, calculate_numeric_similarity lists = spec_numeric_similarity lists) ∧
    calculate_numeric_similarity [[100], [200]] = 1 / 2 ∧
    calculate_numeric_similarity [[100], [100]] = 1 := by
  have heq : compare_entities nlp responses =
      1 + ((3 / 5) * calculate_numeric_similarity (docs.map extract_dates)
        + (2 / 5) * calculate_numeric_similarity (docs.map extract_numbers)) * (1 / 2) := by
    unfold compare_entities
    rw [hok]
  have hdd : ∀ l ∈ docs.map extract_dates, ∀ x ∈ l, 0 ≤ x := by
    intro l hl
    obtain ⟨d, _, rfl⟩ := List.mem_map.mp hl
    exact extract_dates_nonneg
  have hnn : ∀ l ∈ docs.map extract_numbers, ∀ x ∈ l, 0 ≤ x := by
    intro l hl
    obtain ⟨d, _, rfl⟩ := List.mem_map.mp hl
    exact extract_numbers_nonneg
  obtain ⟨hd0, hd1⟩ := calculate_numeric_similarity_bounds hdd
  obtain ⟨hn0, hn1⟩ := calculate_numeric_similarity_bounds hnn
  refine ⟨heq, by rw [heq]; linarith, by rw [heq]; linarith, calc_eq_spec_numeric, ?_, ?_⟩
  · norm_num [calculate_numeric_similarity, pairs_list, best_similarity, cross_sims,
      pair_sim, mean, List.filterMap, List.flatMap]
  · norm_num [calculate_numeric_similarity, pairs_list, best_similarity, cross_sims,
      pair_sim, mean, List.filterMap, List.flatMap]

theorem entity_adjustment_spec_witness :
    compare_entities (fun _ => some [⟨"DATE", "2024".toList⟩])
        ["alpha".toList, "beta".toList] = 13 / 10 := by
  have h := (entity_adjustment_spec (fun _ => some [⟨"DATE", "2024".toList⟩])
    ["alpha".toList, "beta".toList]
    [[⟨"DATE", "2024".toList⟩], [⟨"DATE", "2024".toList⟩]] (by decide)).1
  rw [h]
  have hd : List.map extract_dates [[(⟨"DATE", "2024".toList⟩ : SpacyEnt)],
      [⟨"DATE", "2024".toList⟩]] = [[(2024 : ℚ)], [(2024 : ℚ)]] := by decide
  have hn : List.map extract_numbers [[(⟨"DATE", "2024".toList⟩ : SpacyEnt)],
      [⟨"DATE", "2024".toList⟩]] = [[], []] := by decide
  rw [hd, hn]
  have hcalc : calculate_numeric_similarity [[(2024 : ℚ)], [(2024 : ℚ)]] = 1 := by
    norm_num [calculate_numeric_similarity, pairs_list, best_similarity, cross_sims,
      pair_sim, mean, List.filterMap, List.flatMap]
  have hcalc0 : calculate_numeric_similarity ([[], []] : List (List ℚ)) = 0 := by decide
  rw [hcalc, hcalc0]
  norm_num

/-- C6: the contradiction penalty lies in [0, 0.8] and equals the mean
over all recorded per-pair signals capped at 0.8, where a pair records
a weight-0.5 signal exactly when its negation counts differ by more
than 2 and a weight-0.3 signal exactly when its combined
disagreement-marker count exceeds 1; with no recorded signal, and in
particular for two responses containing no negation or disagreement
words, the penalty is exactly 0.0. -/
theorem contradiction_penalty_spec (responses : List Text) (r1 r2 : Text)
    (hn1 : neg_count (lower r1) = 0) (hn2 : neg_count (lower r2) = 0)
    (hd1 : dis_count (lower r1) = 0) (hd2 : dis_count (lower r2) = 0) :
    (0 ≤ detect_contradictions responses ∧ detect_contradictions responses ≤ 4 / 5) ∧
    detect_contradictions responses =
      (if (contradiction_signals responses).isEmpty then 0
       else min (4 / 5) (mean (contradiction_signals responses))) ∧
    (∀ a b : Text, pair_signals a b =
      (if ((neg_count (lower a) : ℤ) - (neg_count (lower b) : ℤ)).natAbs > 2
        then [(1 : ℚ) / 2] else []) ++
      (if dis_count (lower a) + dis_count (lower b) > 1 then [(3 : ℚ) / 10] else [])) ∧
    detect_contradictions [r1, r2] = 0 := by
  refine ⟨⟨detect_contradictions_nonneg responses, ?_⟩, rfl, fun a b => rfl, ?_⟩
  · unfold detect_contradictions
    dsimp only
    split
    · norm_num
    · exact min_le_left _ _
  · have hps : pair_signals r1 r2 = [] := by
      unfold pair_signals
      simp [hn1, hn2, hd1, hd2]
    have hcs : contradiction_signals [r1, r2] = [] := by
      simp [contradiction_signals, pairs_list, hps]
    simp [detect_contradictions, hcs]

theorem contradiction_penalty_spec_witness :
    detect_contradictions ["the sky is blue".toList, "the grass is green".toList] = 0 :=
  (contradiction_penalty_spec [] "the sky is blue".toList "the grass is green".toList
    (by decide) (by decide) (by decide) (by decide)).2.2.2

/-- C9: because every recorded signal has weight 0.5 or 0.3, the mean
of the signals is at most 0.5, so the contradiction penalty never
exceeds 0.5 and the 0.8 cap is never the binding bound (the returned
value always equals the uncapped mean, or 0 with no signals). -/
theorem contradiction_penalty_le_half (responses : List Text) :
    detect_contradictions responses ≤ 1 / 2 ∧
    detect_contradictions responses =
      (if (contradiction_signals responses).isEmpty then 0
       else mean (contradiction_signals responses)) := by
  refine ⟨detect_contradictions_le_half responses, ?_⟩
  unfold detect_contradictions
  dsimp only
  split
  · rfl
  · refine min_eq_right (le_trans ?_ (by norm_num : (1 : ℚ) / 2 ≤ 4 / 5))
    refine mean_le_of_forall_le (by norm_num) ?_
    intro x hx
    rcases contradiction_signals_mem hx with h | h <;> rw [h] <;> norm_num

/-! ### C1, C2, C10: the top-level guard and clamp -/

/-- C1: for every response set, including lists containing empty
strings and strings with no detectable entities, and for every choice
of collaborators and cache, the value returned by measure_consensus
lies in the closed interval [0,1]. -/
theorem score_in_unit_interval (embed : Text → Option E) (cos : E → E → ℚ)
    (nlp : Text → Option (List SpacyEnt)) (cache : Cache E) (responses : List Text) :
    0 ≤ measure_consensus embed cos nlp cache responses ∧
      measure_consensus embed cos nlp cache responses ≤ 1 := by
  unfold measure_consensus
  split
  · exact ⟨by norm_num, by norm_num⟩
  · split
    · exact ⟨le_refl 0, by norm_num⟩
    · exact ⟨le_max_left 0 _, max_le (by norm_num) (min_le_left 1 _)⟩

/-- C2: whenever the response list has fewer than two elements,
measure_consensus returns exactly 1.0, for every choice of the
similarity, entity and contradiction collaborators (so none of those
stages can influence the result). -/
theorem singleton_scores_one (embed : Text → Option E) (cos : E → E → ℚ)
    (nlp : Text → Option (List SpacyEnt)) (cache : Cache E) (responses : List Text)
    (h : responses.length < 2) :
    measure_consensus embed cos nlp cache responses = 1 := by
  unfold measure_consensus
  rw [if_pos h]

theorem singleton_scores_one_witness :
    measure_consensus (E := Unit) (fun _ => some ()) (fun _ _ => 0) (fun _ => some []) []
      ["hi".toList] = 1 :=
  singleton_scores_one (fun _ => some ()) (fun _ _ => 0) (fun _ => some []) []
    ["hi".toList] (by decide)

/-- C10: the empty response list, although excluded by the spec's
non-empty precondition, is handled by the same size guard and returns
1.0 rather than raising, for every choice of collaborators. -/
theorem empty_list_scores_one (embed : Text → Option E) (cos : E → E → ℚ)
    (nlp : Text → Option (List SpacyEnt)) (cache : Cache E) :
    measure_consensus embed cos nlp cache [] = 1 := by
  unfold measure_consensus
  rw [if_pos (by decide)]

/-! ### C8: text normalization -/

/-- Text normalization in the order the specification words it: remove
markdown markers, collapse whitespace, trim, and only then truncate to
500 characters. -/
def spec_clean_text (t : Text) : Text :=
  let t1 := t.filter (fun c => !(isMd c))
  let t2 := collapse_ws t1
  let t3 := strip t2
  if t3.length > 500 then t3.take 500 else t3

set_option maxRecDepth 100000 in
/-- C8 counterexample: the code truncates before trimming, the claim
says it trims before truncating; on one leading space followed by 500
letters the two orders give different outputs (499 versus 500
letters). -/
theorem clean_text_order_counterexample :
    clean_text (' ' :: List.replicate 500 'a') ≠
      spec_clean_text (' ' :: List.replicate 500 'a') ∧
    (clean_text (' ' :: List.replicate 500 'a')).length = 499 ∧
    (spec_clean_text (' ' :: List.replicate 500 'a')).length = 500 := by
  refine ⟨by decide, by decide, by decide⟩

theorem collapse_ws_filter : ∀ l : Text,
    (collapse_ws l).filter (fun c => !(isWs c)) = l.filter (fun c => !(isWs c))
  | [] => rfl
  | [c] => by
    simp only [collapse_ws]
    by_cases h : isWs c = true
    · rw [if_pos h, List.filter_cons, List.filter_cons]
      have hsp : (!(isWs ' ')) = false := rfl
      have hc : (!(isWs c)) = false := by rw [h]; rfl
      rw [hsp, hc]
      simp
    · rw [if_neg h]
  | c :: c2 :: cs => by
    have ih := collapse_ws_filter (c2 :: cs)
    simp only [collapse_ws]
    by_cases h12 : (isWs c && isWs c2) = true
    · rw [if_pos h12, ih]
      have hc : (!(isWs c)) = false := by
        rw [Bool.and_eq_true] at h12
        rw [h12.1]; rfl
      conv_rhs => rw [List.filter_cons]
      rw [hc]
      simp
    · rw [if_neg h12, List.filter_cons, List.filter_cons]
      by_cases hc : isWs c = true
      · rw [if_pos hc]
        have h1 : (!(isWs ' ')) = false := rfl
        have h2 : (!(isWs c)) = false := by rw [hc]; rfl
        rw [h1, h2]
        simp [ih]
      · rw [if_neg hc]
        have h2 : (!(isWs c)) = true := by
          rw [Bool.not_eq_true] at hc
          rw [hc]; rfl
        rw [h2]
        simp [ih]

theorem dropWhile_filter_ws (l : Text) :
    (l.dropWhile isWs).filter (fun c => !(isWs c)) = l.filter (fun c => !(isWs c)) := by
  conv_rhs => rw [← List.takeWhile_append_dropWhile (p := isWs) (l := l)]
  rw [List.filter_append]
  have h : (l.takeWhile isWs).filter (fun c => !(isWs c)) = [] := by
    rw [List.filter_eq_nil_iff]
    intro c hc
    have := List.mem_takeWhile_imp hc
    simp [this]
  rw [h, List.nil_append]

theorem strip_filter_ws (l : Text) :
    (strip l).filter (fun c => !(isWs c)) = l.filter (fun c => !(isWs c)) := by
  unfold strip
  rw [List.filter_reverse, dropWhile_filter_ws, List.filter_reverse,
    dropWhile_filter_ws, List.reverse_reverse]

theorem strip_length_le (l : Text) : (strip l).length ≤ l.length := by
  unfold strip
  calc ((l.dropWhile isWs).reverse.dropWhile isWs).reverse.length
      = ((l.dropWhile isWs).reverse.dropWhile isWs).length := List.length_reverse _
    _ ≤ (l.dropWhile isWs).reverse.length := (List.dropWhile_sublist _).length_le
    _ = (l.dropWhile isWs).length := List.length_reverse _
    _ ≤ l.length := (List.dropWhile_sublist _).length_le

/-- C8 amended: normalization removes markdown marker runs, collapses
whitespace runs to single spaces, truncates to at most 500 characters
and then trims the ends (truncation precedes trimming); the result has
at most 500 characters and the surviving non-whitespace characters are
a subsequence of the input's non-whitespace characters, in order. -/
theorem clean_text_amended (t : Text) :
    clean_text t =
      strip (if (collapse_ws (t.filter (fun c => !(isMd c)))).length > 500
             then (collapse_ws (t.filter (fun c => !(isMd c)))).take 500
             else collapse_ws (t.filter (fun c => !(isMd c)))) ∧
    (clean_text t).length ≤ 500 ∧
    List.Sublist ((clean_text t).filter (fun c => !(isWs c)))
      (t.filter (fun c => !(isWs c))) := by
  refine ⟨rfl, ?_, ?_⟩
  · show (strip _).length ≤ 500
    refine le_trans (strip_length_le _) ?_
    split
    · simp only [List.length_take]
      exact min_le_left 500 _
    · omega
  · show List.Sublist ((strip _).filter _) _
    rw [strip_filter_ws]
    have hsub : List.Sublist
        ((if (collapse_ws (t.filter (fun c => !(isMd c)))).length > 500
          then (collapse_ws (t.filter (fun c => !(isMd c)))).take 500
          else collapse_ws (t.filter (fun c => !(isMd c)))).filter (fun c => !(isWs c)))
        ((collapse_ws (t.filter (fun c => !(isMd c)))).filter (fun c => !(isWs c))) := by
      split
      · exact (List.take_sublist _ _).filter _
      · exact List.Sublist.refl _
    refine hsub.trans ?_
    rw [collapse_ws_filter]
    exact (List.filter_sublist _).filter _

/-! ### C3: identical responses -/

/-- The embedding one response text resolves to inside one call: the
cached vector for its key when present, else a fresh encoder result on
the cleaned text. -/
def eff_embedding (embed : Text → Option E) (cache : Cache E) (t : Text) : Option E :=
  match cache.lookup (cache_key t) with
  | some e => some e
  | none => embed (clean_text t)

theorem get_embeddings_cons (embed : Text → Option E) (cache : Cache E) (t : Text)
    (ts : List Text) :
    get_embeddings embed cache (t :: ts) =
      match cache.lookup (cache_key t) with
      | some e => (get_embeddings embed cache ts).map (fun r => (e :: r.1, r.2))
      | none =>
        match embed (clean_text t) with
        | none => none
        | some e =>
          (get_embeddings embed ((cache_key t, e) :: cache) ts).map
            (fun r => (e :: r.1, r.2)) := rfl

theorem get_embeddings_all_hits (embed : Text → Option E) {cache : Cache E} {s : Text}
    {e : E} (h : cache.lookup (cache_key s) = some e) :
    ∀ n, get_embeddings embed cache (List.replicate n s) =
      some (List.replicate n e, cache)
  | 0 => rfl
  | n + 1 => by
    rw [List.replicate_succ, get_embeddings_cons, h]
    rw [get_embeddings_all_hits embed h n]
    rw [List.replicate_succ]
    rfl

theorem get_embeddings_replicate (embed : Text → Option E) {cache : Cache E} {s : Text}
    {e : E} (h : eff_embedding embed cache s = some e) (n : ℕ) :
    ∃ c', get_embeddings embed cache (List.replicate n s) =
      some (List.replicate n e, c') := by
  cases n with
  | zero => exact ⟨cache, rfl⟩
  | succ n =>
    rw [List.replicate_succ, get_embeddings_cons]
    unfold eff_embedding at h
    cases hl : cache.lookup (cache_key s) with
    | some e0 =>
      rw [hl] at h
      dsimp only at h
      have he : e0 = e := Option.some_inj.mp h
      subst he
      dsimp only
      rw [get_embeddings_all_hits embed hl n]
      exact ⟨cache, by rw [List.replicate_succ]; rfl⟩
    | none =>
      rw [hl] at h
      dsimp only at h
      dsimp only
      rw [h]
      dsimp only
      have hl2 : ((cache_key s, e) :: cache).lookup (cache_key s) = some e :=
        List.lookup_cons_self
      rw [get_embeddings_all_hits embed hl2 n]
      exact ⟨(cache_key s, e) :: cache, by rw [List.replicate_succ]; rfl⟩

theorem mean_of_forall_eq_one {l : List ℚ} (hne : l ≠ []) (h : ∀ x ∈ l, x = 1) :
    mean l = 1 := by
  have hrep : l = List.replicate l.length 1 := List.eq_replicate_of_mem h
  have hpos : 0 < l.length := List.length_pos.mpr hne
  rw [hrep, List.length_replicate] at *
  exact mean_replicate_one hpos

theorem mem_pairs_list_replicate {n : ℕ} {s : α} {p : α × α}
    (h : p ∈ pairs_list (List.replicate n s)) : p = (s, s) := by
  obtain ⟨h1, h2⟩ := pairs_list_mem h
  have e1 := List.eq_of_mem_replicate h1
  have e2 := List.eq_of_mem_replicate h2
  exact Prod.ext e1 e2

theorem contradiction_signals_replicate_nil {s : Text} (hdis : dis_count (lower s) = 0)
    (n : ℕ) : contradiction_signals (List.replicate n s) = [] := by
  unfold contradiction_signals
  rw [List.flatMap_eq_nil_iff]
  intro p hp
  rw [mem_pairs_list_replicate hp]
  unfold pair_signals
  simp [hdis]

theorem compare_entities_bounds (nlp : Text → Option (List SpacyEnt)) (l : List Text) :
    1 ≤ compare_entities nlp l ∧ compare_entities nlp l ≤ 3 / 2 := by
  unfold compare_entities
  cases h : option_traverse nlp l with
  | none => norm_num
  | some docs =>
    dsimp only
    have hdd : ∀ m ∈ docs.map extract_dates, ∀ x ∈ m, 0 ≤ x := by
      intro m hm
      obtain ⟨d, _, rfl⟩ := List.mem_map.mp hm
      exact extract_dates_nonneg
    have hnn : ∀ m ∈ docs.map extract_numbers, ∀ x ∈ m, 0 ≤ x := by
      intro m hm
      obtain ⟨d, _, rfl⟩ := List.mem_map.mp hm
      exact extract_numbers_nonneg
    obtain ⟨hd0, hd1⟩ := calculate_numeric_similarity_bounds hdd
    obtain ⟨hn0, hn1⟩ := calculate_numeric_similarity_bounds hnn
    constructor <;> [nlinarith; nlinarith]

/-- C3 counterexample: two identical copies of the text but, scored
with a deterministic encoder whose self-similarity is perfect (the
cosine stub is constantly 1) and an entity collaborator returning no
entities, give 0.7 rather than 1.0: each copy contains the
disagreement marker but, so the pair's combined marker count is 2,
which records a 0.3 contradiction signal between identical texts. -/
theorem identical_responses_counterexample :
    measure_consensus (E := Unit) (fun _ => some ()) (fun _ _ => 1) (fun _ => some [])
      [] ["but".toList, "but".toList] = 7 / 10 ∧ (7 / 10 : ℚ) ≠ 1 := by
  constructor
  · have hemb : get_embeddings (E := Unit) (fun _ => some ()) [] ["but".toList, "but".toList] =
        some ([(), ()], [(cache_key "but".toList, ())]) := by decide
    have ht : option_traverse (fun _ => some ([] : List SpacyEnt))
        ["but".toList, "but".toList] = some [[], []] := by decide
    have hc0 : calculate_numeric_similarity ([[], []] : List (List ℚ)) = 0 := by decide
    have hce : compare_entities (fun _ => some []) ["but".toList, "but".toList] = 1 := by
      unfold compare_entities
      rw [ht]
      dsimp only
      have h1 : List.map extract_dates [[], []] = ([[], []] : List (List ℚ)) := by decide
      have h2 : List.map extract_numbers [[], []] = ([[], []] : List (List ℚ)) := by decide
      rw [h1, h2, hc0]
      norm_num
    have hn : neg_count (lower ['b', 'u', 't']) = 0 := by decide
    have hd : dis_count (lower ['b', 'u', 't']) = 1 := by decide
    have hsig : contradiction_signals ["but".toList, "but".toList] = [3 / 10] := by
      unfold contradiction_signals pairs_list pairs_list pairs_list
      unfold pair_signals
      simp [hn, hd]
    have hpen : detect_contradictions ["but".toList, "but".toList] = 3 / 10 := by
      unfold detect_contradictions
      rw [hsig]
      rw [if_neg (by decide)]
      rw [min_eq_right (by norm_num [mean])]
      norm_num [mean]
    unfold measure_consensus
    rw [if_neg (by decide)]
    rw [hemb]
    dsimp only
    rw [hce, hpen]
    norm_num [pairs_list, mean]
  · norm_num

/-- C3 amended: identical responses repeated N at least 2 times score
exactly 1.0 provided the text contains no disagreement-connective
match (however, but, men, dock, on the contrary, tvärtom); between
identical responses no negation asymmetry and no entity mismatch can
arise, and with a deterministic embedding the self-similarity is
perfect, so only the disagreement-marker signal can push the score
below 1. -/
theorem identical_responses_amended (embed : Text → Option E) (cos : E → E → ℚ)
    (nlp : Text → Option (List SpacyEnt)) (cache : Cache E) (s : Text) (N : ℕ) (e : E)
    (hN : 2 ≤ N) (hemb : eff_embedding embed cache s = some e) (hcos : cos e e = 1)
    (hdis : dis_count (lower s) = 0) :
    measure_consensus embed cos nlp cache (List.replicate N s) = 1 := by
  obtain ⟨c', hget⟩ := get_embeddings_replicate embed hemb N
  unfold measure_consensus
  rw [if_neg (by rw [List.length_replicate]; omega)]
  rw [hget]
  dsimp only
  have hall : ∀ x ∈ (pairs_list (List.replicate N e)).map (fun p => cos p.1 p.2), x = 1 := by
    intro x hx
    obtain ⟨p, hp, rfl⟩ := List.mem_map.mp hx
    rw [mem_pairs_list_replicate hp]
    exact hcos
  have hne : (pairs_list (List.replicate N e)).map (fun p => cos p.1 p.2) ≠ [] := by
    obtain ⟨n, rfl⟩ : ∃ n, N = n + 2 := ⟨N - 2, by omega⟩
    rw [show n + 2 = (n + 1) + 1 from rfl, List.replicate_succ, List.replicate_succ]
    simp [pairs_list]
  have hmean : mean ((pairs_list (List.replicate N e)).map (fun p => cos p.1 p.2)) = 1 :=
    mean_of_forall_eq_one hne hall
  have hpen : detect_contradictions (List.replicate N s) = 0 := by
    unfold detect_contradictions
    rw [contradiction_signals_replicate_nil hdis]
    rfl
  obtain ⟨hadj1, hadj2⟩ := compare_entities_bounds nlp (List.replicate N s)
  rw [if_neg (by simpa using hne)]
  rw [hmean, hpen]
  rw [show (1 : ℚ) * compare_entities nlp (List.replicate N s) * (1 - 0) =
    compare_entities nlp (List.replicate N s) from by ring]
  rw [min_eq_left hadj1]
  norm_num

theorem identical_responses_amended_witness :
    measure_consensus (E := Unit) (fun _ => some ()) (fun _ _ => 1) (fun _ => some [])
      [] (List.replicate 2 "yes".toList) = 1 :=
  identical_responses_amended (fun _ => some ()) (fun _ _ => 1) (fun _ => some [])
    [] "yes".toList 2 () (by norm_num) rfl rfl (by decide)

/-! ### C7: failure degradation -/

theorem option_traverse_none {f : α → Option β} :
    ∀ {l : List α}, (∃ t ∈ l, f t = none) → option_traverse f l = none := by
  intro l
  induction l with
  | nil =>
    rintro ⟨t, ht, _⟩
    exact absurd ht (List.not_mem_nil t)
  | cons x xs ih =>
    rintro ⟨t, ht, hf⟩
    unfold option_traverse
    rcases List.mem_cons.mp ht with rfl | hmem
    · rw [hf]
    · cases hfx : f x with
      | none => rfl
      | some y =>
        rw [ih ⟨t, hmem, hf⟩]
        rfl

/-- C7: sub-stage failures do not propagate.  If the entity
collaborator raises on any response the entity stage returns the
neutral adjustment 1.0; if the encoder is unavailable (raises on every
cleaned response) with a fresh cache, the whole call returns the
fallback 0.0; and in every case measure_consensus returns a score in
[0,1] rather than raising (the model is total).  The contradiction
stage has no collaborator and its body is pure, so its defensive
handler is unreachable; its neutral value 0.0 is covered by the
detect_contradictions equations. -/
theorem stage_failure_degradation (embed : Text → Option E) (cos : E → E → ℚ)
    (nlp nlpf : Text → Option (List SpacyEnt)) (cache : Cache E) (responses : List Text)
    (hnlp : ∃ t ∈ responses, nlpf t = none)
    (hembed : ∀ t ∈ responses, embed (clean_text t) = none)
    (hlen : 2 ≤ responses.length) :
    compare_entities nlpf responses = 1 ∧
    measure_consensus embed cos nlp [] responses = 0 ∧
    (0 ≤ measure_consensus embed cos nlp cache responses ∧
      measure_consensus embed cos nlp cache responses ≤ 1) := by
  refine ⟨?_, ?_, ?_⟩
  · unfold compare_entities
    rw [option_traverse_none hnlp]
  · cases responses with
    | nil => simp at hlen
    | cons t ts =>
      have hge : get_embeddings embed ([] : Cache E) (t :: ts) = none := by
        rw [get_embeddings_cons]
        dsimp only [List.lookup]
        rw [hembed t (List.mem_cons_self t ts)]
      unfold measure_consensus
      rw [if_neg (by simp at hlen ⊢; omega)]
      rw [hge]
  · unfold measure_consensus
    split
    · exact ⟨by norm_num, by norm_num⟩
    · split
      · exact ⟨le_refl 0, by norm_num⟩
      · exact ⟨le_max_left 0 _, max_le (by norm_num) (min_le_left 1 _)⟩

theorem stage_failure_degradation_witness :
    compare_entities (fun _ => (none : Option (List SpacyEnt)))
      ["a".toList, "b".toList] = 1 ∧
    measure_consensus (E := Unit) (fun _ => none) (fun _ _ => 1) (fun _ => some [])
      [] ["a".toList, "b".toList] = 0 := by
  have h := stage_failure_degradation (E := Unit) (fun _ => none) (fun _ _ => 1)
    (fun _ => some []) (fun _ => none) [] ["a".toList, "b".toList]
    ⟨"a".toList, List.mem_cons_self _ _, rfl⟩ (fun _ _ => rfl) (by decide)
  exact ⟨h.1, h.2.1⟩

/-! ### C4: permutation behaviour -/

theorem pairs_list_cons (x : α) (l : List α) :
    pairs_list (x :: l) = l.map (fun y => (x, y)) ++ pairs_list l := rfl

/-- The multiset of per-pair contributions over the strict upper
triangle is invariant under permutation of the underlying list, for any
symmetric pair function. -/
theorem pairs_flatMap_perm {G : α → α → List β} (hG : ∀ a b, G a b = G b a) :
    ∀ {l₁ l₂ : List α}, l₁.Perm l₂ →
      ((pairs_list l₁).flatMap (fun p => G p.1 p.2)).Perm
        ((pairs_list l₂).flatMap (fun p => G p.1 p.2)) := by
  intro l₁ l₂ h
  induction h with
  | nil => exact List.Perm.refl _
  | cons x h ih =>
    rw [pairs_list_cons, pairs_list_cons, List.flatMap_append, List.flatMap_append,
      List.flatMap_map, List.flatMap_map]
    exact List.Perm.append (h.flatMap_right _) ih
  | swap x y l =>
    simp only [pairs_list_cons, List.map_cons, List.flatMap_cons, List.flatMap_append,
      List.flatMap_map, List.append_assoc]
    rw [hG y x]
    exact List.Perm.append_left (G x y)
      (List.perm_append_comm_assoc (l.flatMap fun z => G y z)
        (l.flatMap fun z => G x z) _)
  | trans h1 h2 ih1 ih2 => exact ih1.trans ih2

theorem mean_perm {l₁ l₂ : List ℚ} (h : l₁.Perm l₂) : mean l₁ = mean l₂ := by
  unfold mean
  rw [h.sum_eq, h.length_eq]

theorem option_traverse_perm {f : α → Option β} :
    ∀ {l₁ l₂ : List α}, l₁.Perm l₂ → ∀ {r : List β},
      option_traverse f l₁ = some r →
      ∃ r', option_traverse f l₂ = some r' ∧ r.Perm r' := by
  intro l₁ l₂ h
  induction h with
  | nil =>
    intro r hr
    exact ⟨r, hr, List.Perm.refl r⟩
  | cons x h ih =>
    rename_i L1 L2
    intro r hr
    unfold option_traverse at hr ⊢
    cases hfx : f x with
    | none =>
      rw [hfx] at hr
      dsimp only at hr
      exact absurd hr (by simp)
    | some y =>
      rw [hfx] at hr
      dsimp only at hr ⊢
      cases hot : option_traverse f L1 with
      | none =>
        rw [hot] at hr
        exact absurd hr (by simp)
      | some r0 =>
        rw [hot] at hr
        obtain ⟨r0', h2', hp⟩ := ih hot
        rw [h2']
        refine ⟨y :: r0', rfl, ?_⟩
        have hr0 : r = y :: r0 := by simpa using hr.symm
        rw [hr0]
        exact hp.cons y
  | swap a b l =>
    intro r hr
    simp only [option_traverse] at hr ⊢
    cases hfb : f b with
    | none => simp [hfb] at hr
    | some fb =>
      rw [hfb] at hr
      dsimp only at hr
      cases hfa : f a with
      | none => simp [hfa] at hr
      | some fa =>
        rw [hfa] at hr
        dsimp only at hr
        cases hot : option_traverse f l with
        | none => simp [hot] at hr
        | some rl =>
          rw [hot] at hr
          have hr0 : r = fb :: fa :: rl := by simpa using hr.symm
          refine ⟨fa :: fb :: rl, by rfl, ?_⟩
          rw [hr0]
          exact List.Perm.swap fa fb rl
  | trans h1 h2 ih1 ih2 =>
    intro r hr
    obtain ⟨r1, hr1, hp1⟩ := ih1 hr
    obtain ⟨r2, hr2, hp2⟩ := ih2 hr1
    exact ⟨r2, hr2, hp1.trans hp2⟩

theorem option_traverse_none_perm {f : α → Option β} {l₁ l₂ : List α} (h : l₁.Perm l₂)
    (hn : option_traverse f l₁ = none) : option_traverse f l₂ = none := by
  cases ho : option_traverse f l₂ with
  | none => rfl
  | some r =>
    obtain ⟨r', hr', _⟩ := option_traverse_perm h.symm ho
    rw [hn] at hr'
    exact absurd hr' (by simp)

/-- When no two distinct responses collide on the cache key, the list
of embeddings get_embeddings returns is the one obtained by resolving
each response independently against the initial cache: the cache
entries written during the walk can only re-supply the same value. -/
theorem get_embeddings_fst (embed : Text → Option E) :
    ∀ (l : List Text) (c c₀ : Cache E),
      (∀ t1 ∈ l, ∀ t2 ∈ l, cache_key t1 = cache_key t2 → t1 = t2) →
      (∀ t ∈ l, eff_embedding embed c t = eff_embedding embed c₀ t) →
      (get_embeddings embed c l).map Prod.fst =
        option_traverse (eff_embedding embed c₀) l
  | [], _, _, _, _ => rfl
  | t :: ts, c, c₀, hinj, hc => by
    rw [get_embeddings_cons]
    unfold option_traverse
    have ht := hc t (List.mem_cons_self t ts)
    cases hl : List.lookup (cache_key t) c with
    | some e =>
      have he : eff_embedding embed c₀ t = some e := by
        rw [← ht]
        unfold eff_embedding
        rw [hl]
      rw [he]
      have ih := get_embeddings_fst embed ts c c₀
        (fun a ha b hb => hinj a (List.mem_cons_of_mem t ha) b (List.mem_cons_of_mem t hb))
        (fun a ha => hc a (List.mem_cons_of_mem t ha))
      rw [← ih]
      dsimp only
      rw [Option.map_map, Option.map_map]
      rfl
    | none =>
      have he : eff_embedding embed c₀ t = embed (clean_text t) := by
        rw [← ht]
        unfold eff_embedding
        rw [hl]
      rw [he]
      cases hembt : embed (clean_text t) with
      | none => rfl
      | some e =>
        have hc' : ∀ a ∈ ts,
            eff_embedding embed ((cache_key t, e) :: c) a = eff_embedding embed c₀ a := by
          intro a ha
          by_cases hk : cache_key a = cache_key t
          · have hat : a = t :=
              hinj a (List.mem_cons_of_mem t ha) t (List.mem_cons_self t ts) hk
            subst hat
            have hlhs : eff_embedding embed ((cache_key a, e) :: c) a = some e := by
              unfold eff_embedding
              rw [List.lookup_cons, beq_self_eq_true]
            rw [hlhs, ← ht]
            unfold eff_embedding
            rw [hl, hembt]
          · have hlhs : eff_embedding embed ((cache_key t, e) :: c) a =
                eff_embedding embed c a := by
              unfold eff_embedding
              rw [List.lookup_cons, beq_eq_false_iff_ne.mpr hk]
            rw [hlhs]
            exact hc a (List.mem_cons_of_mem t ha)
        have ih := get_embeddings_fst embed ts ((cache_key t, e) :: c) c₀
          (fun a ha b hb => hinj a (List.mem_cons_of_mem t ha) b (List.mem_cons_of_mem t hb))
          hc'
        rw [← ih]
        dsimp only
        rw [Option.map_map, Option.map_map]
        rfl

theorem isEmpty_eq_of_length_eq {l₁ l₂ : List α} (h : l₁.length = l₂.length) :
    l₁.isEmpty = l₂.isEmpty := by
  cases l₁ <;> cases l₂ <;> simp_all

theorem any_eq_of_perm {p : α → Bool} {l₁ l₂ : List α} (h : l₁.Perm l₂) :
    l₁.any p = l₂.any p := by
  have hiff : l₁.any p = true ↔ l₂.any p = true := by
    simp only [List.any_eq_true]
    constructor
    · rintro ⟨x, hx, hpx⟩
      exact ⟨x, h.mem_iff.mp hx, hpx⟩
    · rintro ⟨x, hx, hpx⟩
      exact ⟨x, h.mem_iff.mpr hx, hpx⟩
  cases ha : l₁.any p <;> cases hb : l₂.any p <;> simp_all

/-- Each pair's contradiction signals do not depend on the order of
the pair: the negation-count gap and the combined marker count are
symmetric. -/
theorem pair_signals_comm (r1 r2 : Text) : pair_signals r1 r2 = pair_signals r2 r1 := by
  unfold pair_signals
  dsimp only
  have h1 : ((neg_count (lower r1) : ℤ) - (neg_count (lower r2) : ℤ)).natAbs
      = ((neg_count (lower r2) : ℤ) - (neg_count (lower r1) : ℤ)).natAbs := by
    rw [← Int.natAbs_neg, neg_sub]
  rw [h1, Nat.add_comm (dis_count (lower r1)) (dis_count (lower r2))]

theorem detect_contradictions_perm {l₁ l₂ : List Text} (h : l₁.Perm l₂) :
    detect_contradictions l₁ = detect_contradictions l₂ := by
  have hsig : (contradiction_signals l₁).Perm (contradiction_signals l₂) :=
    pairs_flatMap_perm pair_signals_comm h
  unfold detect_contradictions
  dsimp only
  rw [isEmpty_eq_of_length_eq hsig.length_eq, mean_perm hsig]

theorem foldl_max_init : ∀ (l : List ℚ) (a : ℚ), 0 ≤ a →
    l.foldl max a = max a (l.foldl max 0)
  | [], a, h0 => by
    rw [List.foldl_nil, List.foldl_nil, max_eq_left h0]
  | x :: xs, a, h0 => by
    rw [List.foldl_cons, List.foldl_cons]
    rw [foldl_max_init xs (max a x) (le_trans h0 (le_max_left a x))]
    rw [foldl_max_init xs (max 0 x) (le_max_left 0 x)]
    have hM : 0 ≤ xs.foldl max 0 := le_foldl_max 0 xs
    rw [max_assoc 0 x (xs.foldl max 0),
      max_eq_right (le_trans hM (le_max_right x (xs.foldl max 0))), ← max_assoc]

theorem foldl_max_append (l₁ l₂ : List ℚ) :
    (l₁ ++ l₂).foldl max 0 = max (l₁.foldl max 0) (l₂.foldl max 0) := by
  rw [List.foldl_append]
  exact foldl_max_init l₂ (l₁.foldl max 0) (le_foldl_max 0 l₁)

theorem foldl_max_flatMap_append {A B : α → List ℚ} : ∀ l : List α,
    (l.flatMap (fun x => A x ++ B x)).foldl max 0 =
      max ((l.flatMap A).foldl max 0) ((l.flatMap B).foldl max 0)
  | [] => (max_self (0 : ℚ)).symm
  | x :: xs => by
    rw [List.flatMap_cons, List.flatMap_cons, List.flatMap_cons]
    rw [foldl_max_append, foldl_max_append, foldl_max_append, foldl_max_append,
      foldl_max_flatMap_append xs]
    apply max_max_max_comm

theorem pair_sim_comm (n1 n2 : ℚ) : pair_sim n1 n2 = pair_sim n2 n1 := by
  unfold pair_sim
  rw [max_comm n2 n1, abs_sub_comm n2 n1]

theorem filterMap_cons_toList (f : α → Option β) (x : α) (l : List α) :
    (x :: l).filterMap f = (f x).toList ++ l.filterMap f := by
  cases h : f x <;> simp [List.filterMap_cons, h]

theorem cross_sims_nil_right (a : List ℚ) : cross_sims a [] = [] := by
  unfold cross_sims
  simp

/-- The best cross-pair similarity of two value lists does not depend
on the order of the two lists: it is the maximum of a symmetric value
over the cross product. -/
theorem best_similarity_comm : ∀ a b : List ℚ, best_similarity a b = best_similarity b a
  | [], b => by
    unfold best_similarity cross_sims
    rw [show (b.flatMap fun n1 => List.filterMap (fun n2 => pair_sim n1 n2) []) = [] from by
      simp [List.flatMap_eq_nil_iff]]
    rfl
  | x :: a', b => by
    unfold best_similarity
    rw [show cross_sims (x :: a') b =
      b.filterMap (fun n2 => pair_sim x n2) ++ cross_sims a' b from rfl]
    rw [foldl_max_append]
    have hrow : cross_sims b (x :: a') =
        b.flatMap (fun n1 => (pair_sim n1 x).toList ++ a'.filterMap (pair_sim n1)) := by
      unfold cross_sims
      exact List.flatMap_congr (fun n1 _ => filterMap_cons_toList _ x a')
    rw [hrow, foldl_max_flatMap_append]
    have h1 : b.flatMap (fun n1 => (pair_sim n1 x).toList) =
        b.filterMap (fun n1 => pair_sim x n1) := by
      rw [← List.filterMap_eq_flatMap_toList]
      exact congrArg (fun f => b.filterMap f) (funext (fun n1 => pair_sim_comm n1 x))
    have h2 : b.flatMap (fun n1 => a'.filterMap (pair_sim n1)) = cross_sims b a' := rfl
    rw [h1, h2]
    have hbest := best_similarity_comm a' b
    unfold best_similarity at hbest
    rw [hbest]

theorem calculate_numeric_similarity_perm {l₁ l₂ : List (List ℚ)} (h : l₁.Perm l₂) :
    calculate_numeric_similarity l₁ = calculate_numeric_similarity l₂ := by
  have hsims : ((pairs_list l₁).filterMap
      (fun p => if p.1.isEmpty || p.2.isEmpty then none
                else some (best_similarity p.1 p.2))).Perm
      ((pairs_list l₂).filterMap
      (fun p => if p.1.isEmpty || p.2.isEmpty then none
                else some (best_similarity p.1 p.2))) := by
    rw [List.filterMap_eq_flatMap_toList, List.filterMap_eq_flatMap_toList]
    exact @pairs_flatMap_perm (List ℚ) ℚ
      (fun a b => (if a.isEmpty || b.isEmpty then none
        else some (best_similarity a b)).toList)
      (fun a b => by dsimp only; rw [Bool.or_comm, best_similarity_comm a b]) l₁ l₂ h
  unfold calculate_numeric_similarity
  rw [any_eq_of_perm h]
  dsimp only
  rw [(h.flatMap_right id).length_eq]
  rw [isEmpty_eq_of_length_eq hsims.length_eq, mean_perm hsims]

theorem compare_entities_perm (nlp : Text → Option (List SpacyEnt)) {l₁ l₂ : List Text}
    (h : l₁.Perm l₂) : compare_entities nlp l₁ = compare_entities nlp l₂ := by
  unfold compare_entities
  cases ho : option_traverse nlp l₁ with
  | none => rw [option_traverse_none_perm h ho]
  | some docs =>
    obtain ⟨docs', ho', hp⟩ := option_traverse_perm h ho
    rw [ho']
    dsimp only
    rw [calculate_numeric_similarity_perm (hp.map extract_dates),
      calculate_numeric_similarity_perm (hp.map extract_numbers)]

/-- C4 amended: permuting the responses leaves the score unchanged
provided no two distinct responses collide on the embedding-cache key
(first 100 characters plus length); cosine similarity is symmetric, and
every aggregation is over unordered pairs.  Under a key collision the
cache can hand a different response's vector to whichever collides
later, and the score may change with the order. -/
theorem permutation_symmetry_amended (embed : Text → Option E) (cos : E → E → ℚ)
    (nlp : Text → Option (List SpacyEnt)) (cache : Cache E) (l₁ l₂ : List Text)
    (hperm : l₁.Perm l₂)
    (hsym : ∀ a b, cos a b = cos b a)
    (hinj : ∀ t1 ∈ l₁, ∀ t2 ∈ l₁, cache_key t1 = cache_key t2 → t1 = t2) :
    measure_consensus embed cos nlp cache l₁ = measure_consensus embed cos nlp cache l₂ := by
  have hinj2 : ∀ t1 ∈ l₂, ∀ t2 ∈ l₂, cache_key t1 = cache_key t2 → t1 = t2 :=
    fun a ha b hb => hinj a (hperm.mem_iff.mpr ha) b (hperm.mem_iff.mpr hb)
  have hg1 := get_embeddings_fst embed l₁ cache cache hinj (fun _ _ => rfl)
  have hg2 := get_embeddings_fst embed l₂ cache cache hinj2 (fun _ _ => rfl)
  unfold measure_consensus
  rw [hperm.length_eq]
  split
  · rfl
  · cases ho : option_traverse (eff_embedding embed cache) l₁ with
    | none =>
      have ho2 := option_traverse_none_perm hperm ho
      have hge1 : get_embeddings embed cache l₁ = none := by
        cases hx : get_embeddings embed cache l₁ with
        | none => rfl
        | some r =>
          rw [hx, ho] at hg1
          simp at hg1
      have hge2 : get_embeddings embed cache l₂ = none := by
        cases hx : get_embeddings embed cache l₂ with
        | none => rfl
        | some r =>
          rw [hx, ho2] at hg2
          simp at hg2
      rw [hge1, hge2]
    | some es =>
      obtain ⟨es', ho2, hpes⟩ := option_traverse_perm hperm ho
      cases hx1 : get_embeddings embed cache l₁ with
      | none =>
        rw [hx1, ho] at hg1
        simp at hg1
      | some r1 =>
        cases hx2 : get_embeddings embed cache l₂ with
        | none =>
          rw [hx2, ho2] at hg2
          simp at hg2
        | some r2 =>
          rw [hx1, ho] at hg1
          rw [hx2, ho2] at hg2
          have hr1 : r1.1 = es := by simpa using hg1
          have hr2 : r2.1 = es' := by simpa using hg2
          dsimp only
          rw [hr1, hr2]
          have hsims : ((pairs_list es).map (fun p => cos p.1 p.2)).Perm
              ((pairs_list es').map (fun p => cos p.1 p.2)) := by
            rw [List.map_eq_flatMap, List.map_eq_flatMap]
            exact @pairs_flatMap_perm E ℚ (fun a b => [cos a b])
              (fun a b => by dsimp only; rw [hsym a b]) es es' hpes
          rw [isEmpty_eq_of_length_eq hsims.length_eq, mean_perm hsims,
            compare_entities_perm nlp hperm, detect_contradictions_perm hperm]

/-- Counterexample texts for C4: two distinct 101-character texts that
share the first 100 characters and the length, hence the cache key,
plus one unrelated short text. -/
def cexS : Text := List.replicate 100 'a' ++ ['b']

def cexT : Text := List.replicate 100 'a' ++ ['c']

def cexU : Text := ['d']

/-- A deterministic encoder stub: three distinct texts map to three
distinct embedding identifiers. -/
def cexEmbed : Text → Option ℕ :=
  fun t => if t = cexS then some 0 else if t = cexT then some 1 else some 2

/-- Cosine stub consistent with real cosine similarity on unit vectors
(self-similarity 1, symmetric): vectors 0 and 2 orthogonal, vectors 1
and 2 at sixty degrees. -/
def cexCos : ℕ → ℕ → ℚ :=
  fun i j => if i = j then 1 else if i + j = 3 then 1 / 2 else 0

set_option maxRecDepth 40000 in
/-- C4 counterexample: the two orders of the same response multiset
score 1/3 and 2/3.  The colliding texts cexS and cexT share one cache
key, so whichever comes first plants its embedding for both, and the
two orders compare different vectors against the third response; the
difference is far beyond floating-point tolerance. -/
theorem permutation_counterexample :
    [cexS, cexT, cexU].Perm [cexT, cexS, cexU] ∧
    measure_consensus cexEmbed cexCos (fun _ => some []) [] [cexS, cexT, cexU] = 1 / 3 ∧
    measure_consensus cexEmbed cexCos (fun _ => some []) [] [cexT, cexS, cexU] = 2 / 3 ∧
    (1 / 3 : ℚ) ≠ 2 / 3 := by
  have hc0 : calculate_numeric_similarity ([[], [], []] : List (List ℚ)) = 0 := by decide
  have hce : ∀ rs : List Text, compare_entities (fun _ => some []) rs =
      1 + ((3 / 5) * calculate_numeric_similarity
          (List.map extract_dates (List.replicate rs.length []))
        + (2 / 5) * calculate_numeric_similarity
          (List.map extract_numbers (List.replicate rs.length []))) * (1 / 2) := by
    intro rs
    have ht : option_traverse (fun _ => some ([] : List SpacyEnt)) rs =
        some (List.replicate rs.length []) := by
      induction rs with
      | nil => rfl
      | cons x xs ih =>
        unfold option_traverse
        rw [ih]
        rfl
    unfold compare_entities
    rw [ht]
  have hce3 : ∀ rs : List Text, rs.length = 3 →
      compare_entities (fun _ => some []) rs = 1 := by
    intro rs h3
    rw [hce rs, h3]
    have hd : List.map extract_dates (List.replicate 3 []) = ([[], [], []] : List (List ℚ)) := by
      decide
    have hn : List.map extract_numbers (List.replicate 3 []) =
        ([[], [], []] : List (List ℚ)) := by decide
    rw [show List.replicate 3 ([] : List SpacyEnt) = [[], [], []] from rfl] at hd hn
    rw [show (List.replicate 3 ([] : List SpacyEnt)) = [[], [], []] from rfl]
    rw [hd, hn, hc0]
    norm_num
  have hpenA : detect_contradictions [cexS, cexT, cexU] = 0 := by
    have hsig : contradiction_signals [cexS, cexT, cexU] = [] := by decide
    unfold detect_contradictions
    rw [hsig]
    rfl
  have hpenB : detect_contradictions [cexT, cexS, cexU] = 0 := by
    have hsig : contradiction_signals [cexT, cexS, cexU] = [] := by decide
    unfold detect_contradictions
    rw [hsig]
    rfl
  refine ⟨List.Perm.swap cexT cexS [cexU], ?_, ?_, by norm_num⟩
  · have hge : (get_embeddings cexEmbed [] [cexS, cexT, cexU]).map Prod.fst =
        some [0, 0, 2] := by decide
    unfold measure_consensus
    rw [if_neg (by decide)]
    cases hx : get_embeddings cexEmbed [] [cexS, cexT, cexU] with
    | none =>
      rw [hx] at hge
      simp at hge
    | some r =>
      rw [hx] at hge
      have hr : r.1 = [0, 0, 2] := by simpa using hge
      dsimp only
      rw [hr]
      have hsims : (pairs_list [(0 : ℕ), 0, 2]).map (fun p => cexCos p.1 p.2) =
          [1, 0, 0] := by norm_num [pairs_list, cexCos]
      rw [hsims, hce3 [cexS, cexT, cexU] rfl, hpenA]
      rw [show List.isEmpty [(1 : ℚ), 0, 0] = false from rfl]
      rw [if_neg (by simp)]
      norm_num [mean]
  · have hge : (get_embeddings cexEmbed [] [cexT, cexS, cexU]).map Prod.fst =
        some [1, 1, 2] := by decide
    unfold measure_consensus
    rw [if_neg (by decide)]
    cases hx : get_embeddings cexEmbed [] [cexT, cexS, cexU] with
    | none =>
      rw [hx] at hge
      simp at hge
    | some r =>
      rw [hx] at hge
      have hr : r.1 = [1, 1, 2] := by simpa using hge
      dsimp only
      rw [hr]
      have hsims : (pairs_list [(1 : ℕ), 1, 2]).map (fun p => cexCos p.1 p.2) =
          [1, 1 / 2, 1 / 2] := by norm_num [pairs_list, cexCos]
      rw [hsims, hce3 [cexT, cexS, cexU] rfl, hpenB]
      rw [if_neg (by simp)]
      norm_num [mean]

theorem permutation_symmetry_amended_witness :
    measure_consensus (E := Unit) (fun _ => some ()) (fun _ _ => 1) (fun _ => some [])
        [] ["ab".toList, "cd".toList] =
      measure_consensus (E := Unit) (fun _ => some ()) (fun _ _ => 1) (fun _ => some [])
        [] ["cd".toList, "ab".toList] :=
  permutation_symmetry_amended (fun _ => some ()) (fun _ _ => 1) (fun _ => some [])
    [] ["ab".toList, "cd".toList] ["cd".toList, "ab".toList]
    (List.Perm.swap "cd".toList "ab".toList [])
    (fun _ _ => rfl) (by decide)

end SmartConsensus
